import Mathlib

/-!
Shallow embedding of the streaming ASR post-processor in
`whisper_online_ts.py`: the `HypothesisBuffer` LocalAgreement-2 core and the
`OnlineASRProcessor` window management, with theorems checking the
natural-language specification's claims against the code.

Python strings are modelled as lists of characters, timestamps as rationals,
audio samples as a list of rationals (their values are never inspected
arithmetically by the modelled code paths).
-/

set_option linter.unusedVariables false

/-- A Python string, modelled as its list of characters. -/
abbrev Str := List Char

/-- A timestamped word `(beg, end, text)` as carried in the Python tuples
`(a, b, t)`. -/
structure TWord where
  beg : ℚ
  stop : ℚ
  txt : Str
deriving DecidableEq, Repr

/-- Python `" ".join(...)` / `sep.join(...)`: `joinWith sep xs` concatenates
the strings of `xs` with `sep` between consecutive elements. -/
def joinWith (sep : Str) : List Str → Str
  | [] => []
  | [x] => x
  | x :: y :: xs => x ++ sep ++ joinWith sep (y :: xs)

/-- Python `" ".join(...)`. -/
def joinSp (xs : List Str) : Str := joinWith [' '] xs

/-- State of `HypothesisBuffer` (source lines 114-121). -/
structure HypothesisBuffer where
  commited_in_buffer : List TWord
  buffer : List TWord
  new : List TWord
  last_commited_time : ℚ
  last_commited_word : Option Str
deriving DecidableEq, Repr

/-- `HypothesisBuffer.__init__`. -/
def HypothesisBuffer.init : HypothesisBuffer :=
  { commited_in_buffer := [], buffer := [], new := [],
    last_commited_time := 0, last_commited_word := none }

/-- `" ".join([self.commited_in_buffer[-j][2] for j in range(1, i+1)][::-1])`:
the last `i` committed texts in chronological order, joined by spaces. -/
def ngramLast (c : List TWord) (i : ℕ) : Str :=
  joinSp (((c.map TWord.txt).reverse.take i).reverse)

/-- `" ".join(self.new[j-1][2] for j in range(1, i+1))`: the first `i` texts
of `new`, joined by spaces. -/
def ngramHead (n : List TWord) (i : ℕ) : Str :=
  joinSp ((n.map TWord.txt).take i)

/-- The `for i in range(1, min(min(cn, nn), 5) + 1): ... break` scan in
`HypothesisBuffer.insert`: the first `i` in `1..min(cn, nn, 5)` whose
committed-tail n-gram equals the `new`-head n-gram, else `0` (drop nothing). -/
def dedupCount (c n : List TWord) : ℕ :=
  ((List.range' 1 (min (min c.length n.length) 5)).find?
    (fun i => ngramLast c i == ngramHead n i)).getD 0

/-- `HypothesisBuffer.insert` (source lines 123-144): shift timestamps by
`offset`, keep words starting strictly after `last_commited_time - 0.1`, and
when the head is within 1 s of the commit point and something was committed
before, drop the first-matching head n-gram. -/
def HypothesisBuffer.insert (hb : HypothesisBuffer) (ws : List TWord) (off : ℚ) :
    HypothesisBuffer :=
  let shifted := ws.map fun w => { w with beg := w.beg + off, stop := w.stop + off }
  let fl := shifted.filter fun w => hb.last_commited_time - 1/10 < w.beg
  match fl with
  | [] => { hb with new := fl }
  | w :: _ =>
    if |w.beg - hb.last_commited_time| < 1 ∧ hb.commited_in_buffer ≠ [] then
      { hb with new := fl.drop (dedupCount hb.commited_in_buffer fl) }
    else
      { hb with new := fl }

/-- The `while self.new: ...` loop of `HypothesisBuffer.flush`
(source lines 149-163).  Arguments: `new`, `buffer`, `last_commited_time`,
`last_commited_word`; result: `(commit, remaining new, lct, lcw)`. -/
def flushLoop : List TWord → List TWord → ℚ → Option Str →
    (List TWord × List TWord × ℚ × Option Str)
  | [], _, lct, lcw => ([], [], lct, lcw)
  | n :: ns, [], lct, lcw => ([], n :: ns, lct, lcw)
  | n :: ns, b :: bs, lct, lcw =>
    if n.txt = b.txt then
      let r := flushLoop ns bs n.stop (some n.txt)
      (n :: r.1, r.2.1, r.2.2.1, r.2.2.2)
    else
      ([], n :: ns, lct, lcw)

/-- `HypothesisBuffer.flush` (source lines 146-167): commit the agreeing
prefix of `new` and `buffer`, replace `buffer` by the remainder of `new`,
clear `new`, extend `commited_in_buffer`. -/
def HypothesisBuffer.flush (hb : HypothesisBuffer) :
    HypothesisBuffer × List TWord :=
  let r := flushLoop hb.new hb.buffer hb.last_commited_time hb.last_commited_word
  ({ commited_in_buffer := hb.commited_in_buffer ++ r.1,
     buffer := r.2.1,
     new := [],
     last_commited_time := r.2.2.1,
     last_commited_word := r.2.2.2 }, r.1)

/-- The `while` loop of `HypothesisBuffer.pop_commited`. -/
def popLoop : List TWord → ℚ → List TWord
  | [], _ => []
  | w :: ws, t => if w.stop ≤ t then popLoop ws t else w :: ws

/-- `HypothesisBuffer.pop_commited` (source lines 169-171). -/
def HypothesisBuffer.pop_commited (hb : HypothesisBuffer) (time : ℚ) :
    HypothesisBuffer :=
  { hb with commited_in_buffer := popLoop hb.commited_in_buffer time }

/-- `HypothesisBuffer.complete` (source lines 173-174). -/
def HypothesisBuffer.complete (hb : HypothesisBuffer) : List TWord :=
  hb.buffer

/-- A transcriber segment: the core reads only the segment end time and the
word list (spec data model `S = (end, words)`). -/
structure Seg where
  stop : ℚ
  words : List TWord
deriving DecidableEq, Repr

/-- `ts_words` (source lines 391-399): flatten all words of all segments. -/
def ts_words (segs : List Seg) : List TWord :=
  (segs.map Seg.words).flatten

/-- `segments_end_ts` (source lines 401-402). -/
def segments_end_ts (segs : List Seg) : List ℚ :=
  segs.map Seg.stop

/-- State of `OnlineASRProcessor` (source lines 189-198).  `silence_iters`
is written once and never read on any modelled path, so it is omitted. -/
structure OnlineState where
  audio_buffer : List ℚ
  buffer_time_offset : ℚ
  transcript_buffer : HypothesisBuffer
  commited : List TWord
  last_chunked_at : ℚ
deriving DecidableEq, Repr

/-- `OnlineASRProcessor.init` (source lines 189-198). -/
def OnlineState.init : OnlineState :=
  { audio_buffer := [], buffer_time_offset := 0,
    transcript_buffer := HypothesisBuffer.init,
    commited := [], last_chunked_at := 0 }

/-- `insert_audio_chunk` (source lines 200-201). -/
def OnlineState.insert_audio_chunk (st : OnlineState) (a : List ℚ) : OnlineState :=
  { st with audio_buffer := st.audio_buffer ++ a }

/-- `commited[i][1]` as the code reads it (always in range at call sites). -/
def stopAt (c : List TWord) (i : ℕ) : ℚ :=
  ((c.get? i).map TWord.stop).getD 0

/-- The `while k > 0 and self.commited[k-1][1] > self.last_chunked_at: k -= 1`
loop of `prompt` (source lines 207-209), run from the given start value. -/
def splitGo (c : List TWord) (lca : ℚ) : ℕ → ℕ
  | 0 => 0
  | k + 1 => if lca < stopAt c k then splitGo c lca k else k + 1

/-- The final split index `k` computed by `prompt`: start at
`max(0, len(commited) - 1)` and walk down. -/
def splitIdx (c : List TWord) (lca : ℚ) : ℕ :=
  splitGo c lca (c.length - 1)

/-- The `while p and l < 200: x = p.pop(-1); l += len(x)+1; prompt.append(x)`
loop of `prompt` (source lines 213-218), with the popped-from-the-back list
passed already reversed. -/
def promptTake : List Str → ℕ → List Str
  | [], _ => []
  | x :: xs, l => if l < 200 then x :: promptTake xs (l + x.length + 1) else []

/-- `OnlineASRProcessor.prompt` (source lines 203-220): returns
`(prompt, non_prompt)` where `prompt` is built from the already-scrolled-out
prefix `commited[:k]` and `non_prompt` joins the rest. -/
def OnlineState.prompt (st : OnlineState) : Str × Str :=
  let k := splitIdx st.commited st.last_chunked_at
  let p := (st.commited.take k).map TWord.txt
  let pr := promptTake p.reverse 0
  (pr.reverse.flatten, ((st.commited.drop k).map TWord.txt).flatten)

/-- Python `int(...)` on a rational: truncation toward zero. -/
def truncQ (q : ℚ) : ℤ :=
  if 0 ≤ q then ⌊q⌋ else -⌊-q⌋

/-- Python slice `a[i:]` for a possibly negative integer index. -/
def pySliceFrom (l : List ℚ) (i : ℤ) : List ℚ :=
  if 0 ≤ i then l.drop i.toNat else l.drop (l.length - i.natAbs)

/-- `OnlineASRProcessor.chunk_at` (source lines 329-335). -/
def OnlineState.chunk_at (st : OnlineState) (time : ℚ) : OnlineState :=
  let tb := st.transcript_buffer.pop_commited time
  let cut := time - st.buffer_time_offset
  let audio := pySliceFrom st.audio_buffer (truncQ cut * 16000)
  { st with
    transcript_buffer := tb
    audio_buffer := audio
    buffer_time_offset := time
    last_chunked_at := time }

/-- Python `str.strip()`: drop whitespace from both ends. -/
def trimC (s : Str) : Str :=
  ((s.dropWhile Char.isWhitespace).reverse.dropWhile Char.isWhitespace).reverse

/-- The inner `while cwords:` loop of `words_to_sentences`
(source lines 351-359).  Arguments: remaining words, current `sent`,
`fsent`, `beg`; result: the emitted triple (if the loop hit `break`) and the
remaining words. -/
def sentWalk : List TWord → Str → Str → Option ℚ →
    (Option (Option ℚ × ℚ × Str) × List TWord)
  | [], _, _, _ => (none, [])
  | w :: ws, sent, fsent, beg =>
    if beg = none ∧ w.txt <+: sent then
      sentWalk ws (trimC (sent.drop w.txt.length)) fsent (some w.beg)
    else if sent = w.txt then
      (some (beg, w.stop, fsent), ws)
    else
      sentWalk ws (trimC (sent.drop w.txt.length)) fsent beg

/-- The outer `while s:` loop of `words_to_sentences` (source lines 346-359). -/
def wtsGo : List Str → List TWord → List (Option ℚ × ℚ × Str)
  | [], _ => []
  | s0 :: rest, cwords =>
    let sent := trimC s0
    match sentWalk cwords sent sent none with
    | (some tr, cw) => tr :: wtsGo rest cw
    | (none, cw) => wtsGo rest cw

/-- `OnlineASRProcessor.words_to_sentences` (source lines 337-360), with the
sentence segmenter passed as a function. -/
def words_to_sentences (split : Str → List Str) (words : List TWord) :
    List (Option ℚ × ℚ × Str) :=
  wtsGo (split (joinSp (words.map TWord.txt))) words

/-- `OnlineASRProcessor.chunk_completed_sentence` (source lines 291-306). -/
def OnlineState.chunk_completed_sentence (st : OnlineState)
    (split : Str → List Str) : OnlineState :=
  if st.commited = [] then st
  else
    let sents := words_to_sentences split st.commited
    if sents.length < 2 then st
    else
      let s2 := sents.drop (sents.length - 2)
      st.chunk_at (s2.getD 0 (none, 0, [])).2.1

/-- The `e = ends[-2] + offset; while len(ends) > 2 and e > t: ends.pop(-1); ...`
walk of `chunk_completed_segment` (source lines 317-320); returns the final
candidate `e`. -/
def segWalk (ends : List ℚ) (off t : ℚ) : ℚ :=
  let e := ends.getD (ends.length - 2) 0 + off
  if h : 2 < ends.length ∧ t < e then segWalk ends.dropLast off t else e
termination_by ends.length
decreasing_by
  have : ends ≠ [] := by
    intro hnil
    rw [hnil] at h
    simp at h
  simp [List.length_dropLast]
  omega

/-- `OnlineASRProcessor.chunk_completed_segment` (source lines 308-327). -/
def OnlineState.chunk_completed_segment (st : OnlineState) (res : List Seg) :
    OnlineState :=
  if st.commited = [] then st
  else
    let ends := segments_end_ts res
    let t := ((st.commited.getLast?).map TWord.stop).getD 0
    if 1 < ends.length then
      let e := segWalk ends st.buffer_time_offset t
      if e ≤ t then st.chunk_at e else st
    else st

/-- `OnlineASRProcessor.to_flush` (source lines 371-389) restricted to lists
of timestamped words, which is how every modelled call site uses it. -/
def to_flush (sents : List TWord) (sep : Str) (offset : ℚ) :
    Option ℚ × Option ℚ × Str :=
  let t := joinWith sep (sents.map TWord.txt)
  match sents with
  | [] => (none, none, t)
  | h :: tl => (some (offset + h.beg),
                some (offset + (((h :: tl).getLast?).getD h).stop), t)

/-- `OnlineASRProcessor.process_iter` (source lines 222-289).  The
transcriber is a function that may fail (`Except`); on failure the error
propagates and, as in the source, no state assignment has happened yet. -/
def OnlineState.process_iter (st : OnlineState)
    (f : List ℚ → Str → Except Unit (List Seg))
    (split : Str → List Str) :
    OnlineState × Except Unit (Option ℚ × Option ℚ × Str) :=
  let pr := st.prompt
  match f st.audio_buffer pr.1 with
  | Except.error e => (st, Except.error e)
  | Except.ok res =>
    let tsw := ts_words res
    let tb1 := st.transcript_buffer.insert tsw st.buffer_time_offset
    let fr := tb1.flush
    let st1 := { st with
                 transcript_buffer := fr.1
                 commited := st.commited ++ fr.2 }
    let st2 := if fr.2 ≠ [] then st1.chunk_completed_sentence split else st1
    let st3 := if 30 < (st2.audio_buffer.length : ℚ) / 16000
               then st2.chunk_completed_segment res else st2
    (st3, Except.ok (to_flush fr.2 [] 0))

/-- `OnlineASRProcessor.finish` (source lines 362-369): formats the
uncommitted tail; the method contains no state assignment, so the state
component is returned unchanged. -/
def OnlineState.finish (st : OnlineState) :
    OnlineState × (Option ℚ × Option ℚ × Str) :=
  (st, to_flush st.transcript_buffer.complete [] 0)

/-- Shorthand for building a timestamped word from a string literal. -/
def mkW (a b : ℚ) (s : String) : TWord := ⟨a, b, s.data⟩

/-- C10: `finish()` mutates nothing, two consecutive calls return equal
triples, and on a freshly initialised processor it returns `(None, None, "")`. -/
theorem finish_frame (st : OnlineState) :
    (st.finish).1 = st ∧
    ((st.finish).1.finish).2 = (st.finish).2 ∧
    (OnlineState.init.finish).2 = (none, none, ([] : Str)) :=
  ⟨rfl, rfl, rfl⟩

/-- C9: if the transcriber call inside `process_iter` fails, the whole
processor state (hypothesis buffer, committed log, audio window, offset,
`last_chunked_at`) is returned unchanged and the error propagates. -/
theorem process_iter_error_frame (st : OnlineState)
    (f : List ℚ → Str → Except Unit (List Seg)) (split : Str → List Str)
    (e : Unit) (h : f st.audio_buffer (st.prompt).1 = Except.error e) :
    st.process_iter f split = (st, Except.error e) := by
  simp only [OnlineState.process_iter, h]

/-- Witness for `process_iter_error_frame` at a concrete failing transcriber. -/
theorem process_iter_error_frame_witness :
    OnlineState.init.process_iter (fun _ _ => Except.error ()) (fun t => [t]) =
      (OnlineState.init, Except.error ()) :=
  process_iter_error_frame OnlineState.init (fun _ _ => Except.error ())
    (fun t => [t]) () rfl

/-- C8 counterexample: `chunk_at` does not strictly increase the window
offset on every call — `chunk_at 0` from the initial state leaves the offset
unchanged, and `chunk_at 3` from offset `5` decreases it. -/
theorem chunk_at_counterexample :
    (OnlineState.init.chunk_at 0).buffer_time_offset =
      OnlineState.init.buffer_time_offset ∧
    ({ OnlineState.init with buffer_time_offset := 5 }.chunk_at 3).buffer_time_offset <
      { OnlineState.init with buffer_time_offset := 5 }.buffer_time_offset := by
  constructor
  · rfl
  · show (3 : ℚ) < 5
    norm_num

/-- C8 amended: after `chunk_at time` the offset and `last_chunked_at` both
equal `time`; the offset strictly increases exactly on calls whose `time`
exceeds the current offset. -/
theorem chunk_at_sets_offset (st : OnlineState) (t : ℚ) :
    (st.chunk_at t).buffer_time_offset = t ∧
    (st.chunk_at t).last_chunked_at = t ∧
    (st.buffer_time_offset < t →
      st.buffer_time_offset < (st.chunk_at t).buffer_time_offset) :=
  ⟨rfl, rfl, fun h => h⟩

/-- Witness for `chunk_at_sets_offset` with the strictness hypothesis
discharged at a concrete input. -/
theorem chunk_at_sets_offset_witness :
    OnlineState.init.buffer_time_offset < 1 ∧
    OnlineState.init.buffer_time_offset <
      (OnlineState.init.chunk_at 1).buffer_time_offset :=
  ⟨by norm_num [OnlineState.init],
   (chunk_at_sets_offset OnlineState.init 1).2.2 (by norm_num [OnlineState.init])⟩

/-- A processor state whose committed log holds a 300-character word that has
already scrolled out of the window. -/
def promptLongState : OnlineState :=
  { OnlineState.init with
    commited := [mkW 0 1 (String.mk (List.replicate 300 'x')), mkW 1 2 "y"]
    last_chunked_at := 2 }

set_option maxRecDepth 8000 in
/-- C4 counterexample: the prompt built by `prompt()` can exceed 200
characters — with a 300-character committed word in the scrolled-out region
the prompt is 300 characters long. -/
theorem prompt_exceeds_200 : 200 < (promptLongState.prompt).1.length := by
  have h : (promptLongState.prompt).1.length = 300 := by decide
  omega

/-- The state used to refute C5: both committed words end at or before
`last_chunked_at`. -/
def splitFullState : OnlineState :=
  { OnlineState.init with
    commited := [mkW 0 1 "a", mkW 1 2 "b"]
    last_chunked_at := 2 }

/-- C5 counterexample: even when every committed word ends at or before
`last_chunked_at`, the split index of `prompt()` is `len(commited) - 1`,
not the full length: the last committed word always stays in the context. -/
theorem splitIdx_not_full :
    (∀ w ∈ splitFullState.commited, w.stop ≤ splitFullState.last_chunked_at) ∧
    splitIdx splitFullState.commited splitFullState.last_chunked_at ≠
      splitFullState.commited.length ∧
    (splitFullState.prompt).2 = "b".data := by
  refine ⟨?_, ?_, ?_⟩ <;> decide

/-- C6 counterexample: on a single committed word and the identity
segmenter, `words_to_sentences` emits no sentence at all (the start-word
branch consumes the word before the equality branch can fire). -/
theorem words_to_sentences_singleton :
    words_to_sentences (fun t => [t]) [mkW 0 1 "hello"] = [] := by
  decide

/-- C3 counterexample trace, step 1: propose a word `"a"` spanning 0-3 s. -/
def lctTrace1 : HypothesisBuffer :=
  ((HypothesisBuffer.init.insert [mkW 0 3 "a"] 0).flush).1

/-- C3 counterexample trace, step 2: the retranscription repeats `"a"` and
appends a short word `"x"` at 2.91-2.95 s; `"a"` commits. -/
def lctTrace2 : HypothesisBuffer :=
  ((lctTrace1.insert [mkW 0 3 "a", mkW (291/100) (295/100) "x"] 0).flush).1

/-- C3 counterexample trace, step 3: `"x"` is proposed again and commits. -/
def lctTrace3 : HypothesisBuffer :=
  ((lctTrace2.insert [mkW (291/100) (295/100) "x"] 0).flush).1

/-- C3 counterexample: `last_commited_time` is not non-decreasing across
iterations — committing the word `"x"` ending at 2.95 s after a word ending
at 3 s lowers it. -/
theorem lct_decreases :
    lctTrace3.last_commited_time < lctTrace2.last_commited_time := by
  have h1 : lctTrace1 = {
      commited_in_buffer := []
      buffer := [mkW 0 3 "a"]
      new := []
      last_commited_time := 0
      last_commited_word := none } := by
    norm_num [lctTrace1, HypothesisBuffer.insert, HypothesisBuffer.flush,
      HypothesisBuffer.init, flushLoop, List.filter, mkW]
  have h2 : lctTrace2 = {
      commited_in_buffer := [mkW 0 3 "a"]
      buffer := [mkW (291/100) (295/100) "x"]
      new := []
      last_commited_time := 3
      last_commited_word := some "a".data } := by
    norm_num [lctTrace2, h1, HypothesisBuffer.insert, HypothesisBuffer.flush,
      flushLoop, List.filter, mkW]
  have h3 : lctTrace3.last_commited_time = 295/100 := by
    have habs : |(9 : ℚ)/100| < 1 := by
      rw [abs_lt]
      constructor <;> norm_num
    norm_num [lctTrace3, h2, HypothesisBuffer.insert, HypothesisBuffer.flush,
      flushLoop, List.filter, dedupCount, ngramLast, ngramHead, joinSp,
      joinWith, habs, mkW]
  rw [h3, h2]
  norm_num [mkW]


/-- Full characterization of the `flush` commit loop: the commit is the
initial segment of `new` whose texts form the longest common prefix with
`buffer`'s texts; the remaining `new` is the matching drop; the final
`last_commited_time`/`last_commited_word` come from the last committed word
(unchanged when nothing commits). -/
theorem flushLoop_spec (n : List TWord) :
    ∀ (b : List TWord) (lct : ℚ) (lcw : Option Str),
      (flushLoop n b lct lcw).1 = n.take (flushLoop n b lct lcw).1.length ∧
      (flushLoop n b lct lcw).2.1 = n.drop (flushLoop n b lct lcw).1.length ∧
      ((flushLoop n b lct lcw).1.map TWord.txt) <+: (n.map TWord.txt) ∧
      ((flushLoop n b lct lcw).1.map TWord.txt) <+: (b.map TWord.txt) ∧
      (∀ p : List Str, p <+: n.map TWord.txt → p <+: b.map TWord.txt →
        p <+: (flushLoop n b lct lcw).1.map TWord.txt) ∧
      (∀ z : TWord, (flushLoop n b lct lcw).1.getLast? = some z →
        (flushLoop n b lct lcw).2.2 = (z.stop, some z.txt)) ∧
      ((flushLoop n b lct lcw).1 = [] → (flushLoop n b lct lcw).2.2 = (lct, lcw)) := by
  induction n with
  | nil =>
    intro b lct lcw
    refine ⟨rfl, rfl, List.nil_prefix, List.nil_prefix, ?_, ?_, fun _ => rfl⟩
    · intro p hp _
      have hp0 : p = [] := by simpa using hp
      rw [hp0]
      exact List.nil_prefix
    · intro z hz
      simp [flushLoop] at hz
  | cons x ns ih =>
    intro b lct lcw
    cases b with
    | nil =>
      refine ⟨rfl, rfl, List.nil_prefix, List.nil_prefix, ?_, ?_, fun _ => rfl⟩
      · intro p _ hp
        have hp0 : p = [] := by simpa using hp
        rw [hp0]
        exact List.nil_prefix
      · intro z hz
        simp [flushLoop] at hz
    | cons y bs =>
      by_cases hxy : x.txt = y.txt
      · obtain ⟨ih1, ih2, ih3, ih4, ih5, ih6, ih7⟩ := ih bs x.stop (some x.txt)
        have hr : flushLoop (x :: ns) (y :: bs) lct lcw =
            (x :: (flushLoop ns bs x.stop (some x.txt)).1,
             (flushLoop ns bs x.stop (some x.txt)).2.1,
             (flushLoop ns bs x.stop (some x.txt)).2.2.1,
             (flushLoop ns bs x.stop (some x.txt)).2.2.2) := by
          simp [flushLoop, hxy]
        rw [hr]
        refine ⟨?_, ?_, ?_, ?_, ?_, ?_, ?_⟩
        · simpa using congrArg (List.cons x) ih1
        · simpa using ih2
        · exact (List.cons_prefix_cons).2 ⟨rfl, ih3⟩
        · exact (List.cons_prefix_cons).2 ⟨hxy, ih4⟩
        · intro p hp1 hp2
          rcases p with _ | ⟨z, p⟩
          · exact List.nil_prefix
          · simp only [List.map_cons, List.cons_prefix_cons] at hp1 hp2 ⊢
            exact ⟨hp1.1, ih5 p hp1.2 hp2.2⟩
        · intro z hz
          rcases hc : (flushLoop ns bs x.stop (some x.txt)).1 with _ | ⟨c, cs⟩
          · rw [hc] at hz
            have hzx : x = z := by simpa using hz
            have h0 := ih7 hc
            calc ((flushLoop ns bs x.stop (some x.txt)).2.2.1,
                  (flushLoop ns bs x.stop (some x.txt)).2.2.2)
                = (flushLoop ns bs x.stop (some x.txt)).2.2 := rfl
              _ = (x.stop, some x.txt) := h0
              _ = (z.stop, some z.txt) := by rw [hzx]
          · rw [hc, List.getLast?_cons_cons] at hz
            have h0 := ih6 z (by rw [hc]; exact hz)
            calc ((flushLoop ns bs x.stop (some x.txt)).2.2.1,
                  (flushLoop ns bs x.stop (some x.txt)).2.2.2)
                = (flushLoop ns bs x.stop (some x.txt)).2.2 := rfl
              _ = (z.stop, some z.txt) := h0
        · intro h
          simp at h
      · have hr : flushLoop (x :: ns) (y :: bs) lct lcw =
            ([], x :: ns, lct, lcw) := by
          simp [flushLoop, hxy]
        rw [hr]
        refine ⟨rfl, rfl, List.nil_prefix, List.nil_prefix, ?_, ?_, fun _ => rfl⟩
        · intro p hp1 hp2
          rcases p with _ | ⟨z, p⟩
          · exact List.nil_prefix
          · simp only [List.map_cons, List.cons_prefix_cons] at hp1 hp2
            exact absurd (hp1.1 ▸ hp2.1) hxy
        · intro z hz
          simp at hz

/-- C1: `flush` returns exactly the longest common prefix (word-by-word by
text equality) of `new` and the previous `buffer`; the returned words are
appended in order to `commited_in_buffer`; the final returned word's end and
text become `last_commited_time` / `last_commited_word`; afterwards `buffer`
is the remainder of `new` past the common prefix and `new` is empty; if
`new` or `buffer` is empty the returned list is empty. -/
theorem flush_commits_lcp (hb : HypothesisBuffer) :
    ((hb.flush.2.map TWord.txt) <+: (hb.new.map TWord.txt)) ∧
    ((hb.flush.2.map TWord.txt) <+: (hb.buffer.map TWord.txt)) ∧
    (∀ p : List Str, p <+: hb.new.map TWord.txt → p <+: hb.buffer.map TWord.txt →
      p <+: hb.flush.2.map TWord.txt) ∧
    hb.flush.2 = hb.new.take hb.flush.2.length ∧
    hb.flush.1.commited_in_buffer = hb.commited_in_buffer ++ hb.flush.2 ∧
    hb.flush.1.buffer = hb.new.drop hb.flush.2.length ∧
    hb.flush.1.new = [] ∧
    (∀ h : hb.flush.2 ≠ [],
      hb.flush.1.last_commited_time = (hb.flush.2.getLast h).stop ∧
      hb.flush.1.last_commited_word = some ((hb.flush.2.getLast h).txt)) ∧
    ((hb.new = [] ∨ hb.buffer = []) → hb.flush.2 = []) := by
  obtain ⟨h1, h2, h3, h4, h5, h6, h7⟩ :=
    flushLoop_spec hb.new hb.buffer hb.last_commited_time hb.last_commited_word
  refine ⟨h3, h4, h5, h1, rfl, h2, rfl, ?_, ?_⟩
  · intro h
    have hg := List.getLast?_eq_getLast hb.flush.2 h
    have h0 := h6 (hb.flush.2.getLast h) hg
    exact ⟨congrArg Prod.fst h0, congrArg Prod.snd h0⟩
  · rintro (hn | hbuf)
    · show (flushLoop hb.new hb.buffer hb.last_commited_time
        hb.last_commited_word).1 = []
      rw [hn]
      rfl
    · rw [hbuf] at h4
      have h40 : (flushLoop hb.new [] hb.last_commited_time
          hb.last_commited_word).1 = [] := by simpa using h4
      show (flushLoop hb.new hb.buffer hb.last_commited_time
        hb.last_commited_word).1 = []
      rw [hbuf]
      exact h40

/-- A hypothesis buffer whose `new` and `buffer` agree on `"a"` and then
diverge, exercising the common-prefix commit. -/
def flushW : HypothesisBuffer :=
  { commited_in_buffer := []
    buffer := [mkW 0 1 "a", mkW 1 2 "b"]
    new := [mkW 0 1 "a", mkW 1 2 "c"]
    last_commited_time := 0
    last_commited_word := none }

/-- Witness for `flush_commits_lcp`: the maximality hypothesis discharged
at the concrete common prefix `["a"]`. -/
theorem flush_commits_lcp_witness :
    (["a".data] <+: flushW.new.map TWord.txt) ∧
    (["a".data] <+: flushW.buffer.map TWord.txt) ∧
    (["a".data] <+: flushW.flush.2.map TWord.txt) :=
  ⟨by decide, by decide,
   (flush_commits_lcp flushW).2.2.1 ["a".data] (by decide) (by decide)⟩

/-- `insert` only rewrites `new`; every other field is untouched. -/
theorem insert_frame (hb : HypothesisBuffer) (ws : List TWord) (off : ℚ) :
    (hb.insert ws off).commited_in_buffer = hb.commited_in_buffer ∧
    (hb.insert ws off).buffer = hb.buffer ∧
    (hb.insert ws off).last_commited_time = hb.last_commited_time ∧
    (hb.insert ws off).last_commited_word = hb.last_commited_word := by
  unfold HypothesisBuffer.insert
  dsimp only
  split
  · exact ⟨rfl, rfl, rfl, rfl⟩
  · split
    · exact ⟨rfl, rfl, rfl, rfl⟩
    · exact ⟨rfl, rfl, rfl, rfl⟩

/-- After `insert`, `new` is a suffix (a `drop`) of the shifted-and-filtered
candidate list. -/
theorem insert_new_eq_drop (hb : HypothesisBuffer) (ws : List TWord) (off : ℚ) :
    ∃ k, (hb.insert ws off).new =
      ((ws.map fun w => { w with beg := w.beg + off, stop := w.stop + off }).filter
        fun w => hb.last_commited_time - 1/10 < w.beg).drop k := by
  unfold HypothesisBuffer.insert
  dsimp only
  split
  · next heq => exact ⟨0, by simp [heq]⟩
  · next w ws' heq =>
    split
    · exact ⟨dedupCount hb.commited_in_buffer
        ((ws.map fun w => { w with beg := w.beg + off, stop := w.stop + off }).filter
          fun w => hb.last_commited_time - 1/10 < w.beg), rfl⟩
    · exact ⟨0, by simp [heq]⟩

/-- C3 amended: `last_commited_time` is not non-decreasing, but it can fall
by strictly less than the 0.1 s insertion slack: across any
`insert`-then-`flush` pair whose words satisfy `start ≤ end`, the new value
stays strictly above the old value minus 0.1. -/
theorem lct_drop_bounded (hb : HypothesisBuffer) (ws : List TWord) (off : ℚ)
    (hws : ∀ w ∈ ws, w.beg ≤ w.stop) :
    hb.last_commited_time - 1/10 < ((hb.insert ws off).flush).1.last_commited_time := by
  have hfr := insert_frame hb ws off
  obtain ⟨h1, h2, h3, h4, h5, h6, h7⟩ :=
    flushLoop_spec (hb.insert ws off).new (hb.insert ws off).buffer
      (hb.insert ws off).last_commited_time (hb.insert ws off).last_commited_word
  rcases hc : (flushLoop (hb.insert ws off).new (hb.insert ws off).buffer
      (hb.insert ws off).last_commited_time (hb.insert ws off).last_commited_word).1
    with _ | ⟨c, cs⟩
  · have h0 := h7 hc
    have he : ((hb.insert ws off).flush).1.last_commited_time =
        (hb.insert ws off).last_commited_time := congrArg Prod.fst h0
    rw [he, hfr.2.2.1]
    linarith
  · have hne : (flushLoop (hb.insert ws off).new (hb.insert ws off).buffer
        (hb.insert ws off).last_commited_time (hb.insert ws off).last_commited_word).1
          ≠ [] := by
      rw [hc]
      exact List.cons_ne_nil c cs
    set z := (flushLoop (hb.insert ws off).new (hb.insert ws off).buffer
        (hb.insert ws off).last_commited_time
        (hb.insert ws off).last_commited_word).1.getLast hne with hz
    have h0 := h6 z (List.getLast?_eq_getLast _ hne)
    have he : ((hb.insert ws off).flush).1.last_commited_time = z.stop :=
      congrArg Prod.fst h0
    have hmem : z ∈ (flushLoop (hb.insert ws off).new (hb.insert ws off).buffer
        (hb.insert ws off).last_commited_time
        (hb.insert ws off).last_commited_word).1 := List.getLast_mem hne
    rw [h1] at hmem
    have hmemN : z ∈ (hb.insert ws off).new := List.mem_of_mem_take hmem
    obtain ⟨k, hk⟩ := insert_new_eq_drop hb ws off
    rw [hk] at hmemN
    have hmemF : z ∈ (ws.map fun w =>
        { w with beg := w.beg + off, stop := w.stop + off }).filter
          fun w => hb.last_commited_time - 1/10 < w.beg :=
      List.drop_subset _ _ hmemN
    have hbeg : hb.last_commited_time - 1/10 < z.beg := by
      have := (List.mem_filter.1 hmemF).2
      simpa using this
    obtain ⟨v, hv, hvz⟩ := List.mem_map.1 (List.mem_of_mem_filter hmemF)
    have hbs : z.beg ≤ z.stop := by
      rw [← hvz]
      simpa using add_le_add_right (hws v hv) off
    rw [he]
    linarith

/-- Witness for `lct_drop_bounded` at the concrete trace step that lowers
`last_commited_time`. -/
theorem lct_drop_bounded_witness :
    (∀ w ∈ [mkW (291/100) (295/100) "x"], w.beg ≤ w.stop) ∧
    lctTrace2.last_commited_time - 1/10 <
      ((lctTrace2.insert [mkW (291/100) (295/100) "x"] 0).flush).1.last_commited_time :=
  ⟨by norm_num [mkW],
   lct_drop_bounded lctTrace2 [mkW (291/100) (295/100) "x"] 0 (by norm_num [mkW])⟩

/-- A `find?` over `range' s n` returns the smallest satisfying value. -/
theorem find?_range'_first {p : ℕ → Bool} :
    ∀ (n s i : ℕ), (List.range' s n).find? p = some i →
      p i = true ∧ s ≤ i ∧ i < s + n ∧ ∀ j, s ≤ j → j < i → p j = false
  | 0, s, i, h => by simp [List.range'] at h
  | n + 1, s, i, h => by
    rw [List.range'_succ] at h
    by_cases hp : p s
    · rw [List.find?_cons_of_pos _ hp] at h
      obtain rfl : s = i := by simpa using h
      exact ⟨hp, le_refl s, by omega, fun j h1 h2 => absurd h1 (by omega)⟩
    · rw [List.find?_cons_of_neg _ hp] at h
      obtain ⟨q1, q2, q3, q4⟩ := find?_range'_first n (s + 1) i h
      refine ⟨q1, by omega, by omega, fun j h1 h2 => ?_⟩
      rcases eq_or_lt_of_le h1 with rfl | hlt
      · simpa using hp
      · exact q4 j (by omega) h2

/-- The dedup drop count of `insert`: it never exceeds 5 and is the
smallest matching n-gram length in `1..min(cn, nn, 5)` (0 when none match). -/
theorem dedupCount_spec (c n : List TWord) :
    dedupCount c n ≤ 5 ∧
    (dedupCount c n = 0 → ∀ i, 1 ≤ i → i ≤ min (min c.length n.length) 5 →
      ngramLast c i ≠ ngramHead n i) ∧
    (0 < dedupCount c n →
      1 ≤ dedupCount c n ∧ dedupCount c n ≤ min (min c.length n.length) 5 ∧
      ngramLast c (dedupCount c n) = ngramHead n (dedupCount c n) ∧
      ∀ i, 1 ≤ i → i < dedupCount c n → ngramLast c i ≠ ngramHead n i) := by
  rcases hf : (List.range' 1 (min (min c.length n.length) 5)).find?
      (fun i => ngramLast c i == ngramHead n i) with _ | i
  · have hk : dedupCount c n = 0 := by
      rw [dedupCount, hf]
      rfl
    rw [hk]
    refine ⟨by omega, fun _ i h1 h2 => ?_, fun h => absurd h (by omega)⟩
    have hmem : i ∈ List.range' 1 (min (min c.length n.length) 5) := by
      rw [List.mem_range'_1]
      omega
    have := List.find?_eq_none.1 hf i hmem
    simpa using this
  · obtain ⟨q1, q2, q3, q4⟩ := find?_range'_first _ 1 i hf
    have hk : dedupCount c n = i := by
      rw [dedupCount, hf]
      rfl
    rw [hk]
    have heq : ngramLast c i = ngramHead n i := by
      have := q1
      simpa using this
    refine ⟨by omega, fun h0 => absurd h0 (by omega), fun _ => ?_⟩
    refine ⟨q2, by omega, heq, fun j h1 h2 => ?_⟩
    have := q4 j h1 h2
    simpa using this

/-- C2: with non-empty committed history, when the first surviving word
starts within 1 s of `last_commited_time`, `insert` drops exactly the first
`i` surviving words for the smallest matching n-gram length
`i ∈ 1..min(cn, nn, 5)` (and none when no n-gram matches); in particular at
most 5 words are dropped. -/
theorem insert_dedup (hb : HypothesisBuffer) (ws : List TWord) (off : ℚ)
    (w : TWord) (rest : List TWord)
    (hfl : ((ws.map fun v => { v with beg := v.beg + off, stop := v.stop + off }).filter
        fun v => hb.last_commited_time - 1/10 < v.beg) = w :: rest)
    (hnear : |w.beg - hb.last_commited_time| < 1)
    (hc : hb.commited_in_buffer ≠ []) :
    (hb.insert ws off).new =
      (w :: rest).drop (dedupCount hb.commited_in_buffer (w :: rest)) ∧
    dedupCount hb.commited_in_buffer (w :: rest) ≤ 5 ∧
    (dedupCount hb.commited_in_buffer (w :: rest) = 0 →
      ∀ i, 1 ≤ i → i ≤ min (min hb.commited_in_buffer.length (w :: rest).length) 5 →
        ngramLast hb.commited_in_buffer i ≠ ngramHead (w :: rest) i) ∧
    (0 < dedupCount hb.commited_in_buffer (w :: rest) →
      1 ≤ dedupCount hb.commited_in_buffer (w :: rest) ∧
      dedupCount hb.commited_in_buffer (w :: rest) ≤
        min (min hb.commited_in_buffer.length (w :: rest).length) 5 ∧
      ngramLast hb.commited_in_buffer (dedupCount hb.commited_in_buffer (w :: rest)) =
        ngramHead (w :: rest) (dedupCount hb.commited_in_buffer (w :: rest)) ∧
      ∀ i, 1 ≤ i → i < dedupCount hb.commited_in_buffer (w :: rest) →
        ngramLast hb.commited_in_buffer i ≠ ngramHead (w :: rest) i) := by
  obtain ⟨s1, s2, s3⟩ := dedupCount_spec hb.commited_in_buffer (w :: rest)
  refine ⟨?_, s1, s2, s3⟩
  unfold HypothesisBuffer.insert
  dsimp only
  rw [hfl]
  dsimp only
  rw [if_pos ⟨hnear, hc⟩]

/-- Spec scenario 4's hypothesis buffer: committed `... alpha beta`,
commit point at 3 s. -/
def dedupHB : HypothesisBuffer :=
  { commited_in_buffer := [mkW 1 2 "alpha", mkW 2 3 "beta"]
    buffer := []
    new := []
    last_commited_time := 3
    last_commited_word := some "beta".data }

/-- Spec scenario 4's proposed words. -/
def dedupWs : List TWord :=
  [mkW (295/100) (31/10) "alpha", mkW (31/10) (33/10) "beta",
   mkW (33/10) (36/10) "gamma"]

/-- Witness for `insert_dedup`: all hypotheses discharged on spec
scenario 4 (`alpha beta` repeated, `gamma` new). -/
theorem insert_dedup_witness :
    (dedupHB.insert dedupWs 0).new =
      dedupWs.drop (dedupCount dedupHB.commited_in_buffer dedupWs) ∧
    dedupCount dedupHB.commited_in_buffer dedupWs ≤ 5 := by
  have hfl : ((dedupWs.map fun v =>
      { v with beg := v.beg + 0, stop := v.stop + 0 }).filter
        fun v => dedupHB.last_commited_time - 1/10 < v.beg) =
      mkW (295/100) (31/10) "alpha" ::
        [mkW (31/10) (33/10) "beta", mkW (33/10) (36/10) "gamma"] := by
    norm_num [dedupWs, dedupHB, mkW, List.filter]
  have h := insert_dedup dedupHB dedupWs 0 (mkW (295/100) (31/10) "alpha")
    [mkW (31/10) (33/10) "beta", mkW (33/10) (36/10) "gamma"] hfl
    (by rw [mkW, dedupHB]; rw [abs_lt]; constructor <;> norm_num)
    (by rw [dedupHB]; exact List.cons_ne_nil _ _)
  exact ⟨h.1, h.2.1⟩

/-- Once the running counter has reached 200, the prompt loop stops. -/
theorem promptTake_stop (xs : List Str) (l : ℕ) (h : 200 ≤ l) :
    promptTake xs l = [] := by
  cases xs with
  | nil => rfl
  | cons x xs => simp [promptTake, Nat.not_lt.2 h]

/-- Character budget of the prompt loop: with every word at most `L` long,
the collected text is at most `200 - l + L` characters. -/
theorem promptTake_sum_le (L : ℕ) :
    ∀ (xs : List Str) (l : ℕ), (∀ x ∈ xs, x.length ≤ L) →
      ((promptTake xs l).map List.length).sum ≤ (200 - l) + L
  | [], l, h => by simp [promptTake]
  | x :: xs, l, h => by
    by_cases hl : l < 200
    · have hx : x.length ≤ L := h x (List.mem_cons_self x xs)
      rw [promptTake, if_pos hl]
      by_cases hstop : 200 ≤ l + x.length + 1
      · rw [promptTake_stop xs _ hstop]
        simp only [List.map_cons, List.map_nil, List.sum_cons, List.sum_nil]
        omega
      · have ih := promptTake_sum_le L xs (l + x.length + 1)
          (fun y hy => h y (List.mem_cons_of_mem x hy))
        simp only [List.map_cons, List.sum_cons]
        omega
    · rw [promptTake, if_neg hl]
      simp

/-- C4 amended: the prompt length is bounded by `200 + L` whenever every
committed word text is at most `L` characters long (the word that crosses
the 200-character budget is still included whole). -/
theorem prompt_length_le (st : OnlineState) (L : ℕ)
    (h : ∀ w ∈ st.commited, w.txt.length ≤ L) :
    (st.prompt).1.length ≤ 200 + L := by
  have hp : ∀ x ∈ ((st.commited.take (splitIdx st.commited st.last_chunked_at)).map
      TWord.txt).reverse, x.length ≤ L := by
    intro x hx
    rw [List.mem_reverse] at hx
    obtain ⟨w, hw, rfl⟩ := List.mem_map.1 hx
    exact h w (List.mem_of_mem_take hw)
  have hb := promptTake_sum_le L
    (((st.commited.take (splitIdx st.commited st.last_chunked_at)).map
      TWord.txt).reverse) 0 hp
  show ((promptTake (((st.commited.take (splitIdx st.commited
      st.last_chunked_at)).map TWord.txt).reverse) 0).reverse.flatten).length ≤ 200 + L
  rw [List.length_flatten, List.map_reverse, List.sum_reverse]
  omega

set_option maxRecDepth 8000 in
/-- Witness for `prompt_length_le` with the length hypothesis discharged on
the concrete 300-character-word state. -/
theorem prompt_length_le_witness :
    (∀ w ∈ promptLongState.commited, w.txt.length ≤ 300) ∧
    (promptLongState.prompt).1.length ≤ 200 + 300 :=
  ⟨by decide, prompt_length_le promptLongState 300 (by decide)⟩

/-- The downward walk of `prompt`'s split loop: from start value `m` it
stops at the largest `k ≤ m` with `k = 0` or `commited[k-1].end ≤ lca`, and
every index it walked past has `commited[j-1].end > lca`. -/
theorem splitGo_spec (c : List TWord) (lca : ℚ) :
    ∀ m, splitGo c lca m ≤ m ∧
      (splitGo c lca m = 0 ∨ stopAt c (splitGo c lca m - 1) ≤ lca) ∧
      (∀ j, splitGo c lca m < j → j ≤ m → lca < stopAt c (j - 1))
  | 0 => by
    refine ⟨le_refl 0, Or.inl rfl, fun j h1 h2 => ?_⟩
    exact absurd h1 (by omega)
  | m + 1 => by
    by_cases hm : lca < stopAt c m
    · obtain ⟨q1, q2, q3⟩ := splitGo_spec c lca m
      have hs : splitGo c lca (m + 1) = splitGo c lca m := by
        rw [splitGo, if_pos hm]
      rw [hs]
      refine ⟨q1.trans (Nat.le_succ m), q2, fun j h1 h2 => ?_⟩
      rcases Nat.lt_or_ge j (m + 1) with hj | hj
      · exact q3 j h1 (by omega)
      · have : j = m + 1 := by omega
        rw [this]
        simpa using hm
    · have hs : splitGo c lca (m + 1) = m + 1 := by
        rw [splitGo, if_neg hm]
      rw [hs]
      refine ⟨le_refl _, Or.inr ?_, fun j h1 h2 => absurd h1 (by omega)⟩
      simpa using not_lt.1 hm

/-- C5 amended: the split index of `prompt()` is the largest
`k ≤ len(commited) - 1` with `k = 0` or `commited[k-1].end ≤
last_chunked_at` (never the full length); the prompt is drawn only from
`commited[:k]` and the context is exactly `commited[k:]`. -/
theorem prompt_split_spec (st : OnlineState) :
    splitIdx st.commited st.last_chunked_at ≤ st.commited.length - 1 ∧
    (splitIdx st.commited st.last_chunked_at = 0 ∨
      stopAt st.commited (splitIdx st.commited st.last_chunked_at - 1) ≤
        st.last_chunked_at) ∧
    (∀ j, splitIdx st.commited st.last_chunked_at < j →
      j ≤ st.commited.length - 1 → st.last_chunked_at < stopAt st.commited (j - 1)) ∧
    (st.prompt).1 = (promptTake (((st.commited.take
      (splitIdx st.commited st.last_chunked_at)).map TWord.txt).reverse)
        0).reverse.flatten ∧
    (st.prompt).2 = ((st.commited.drop
      (splitIdx st.commited st.last_chunked_at)).map TWord.txt).flatten := by
  obtain ⟨q1, q2, q3⟩ := splitGo_spec st.commited st.last_chunked_at
    (st.commited.length - 1)
  exact ⟨q1, q2, q3, rfl, rfl⟩

/-- Witness for `prompt_split_spec`, with the walked-past hypothesis
exercised at the concrete two-word state. -/
theorem prompt_split_spec_witness :
    splitIdx splitFullState.commited splitFullState.last_chunked_at ≤
      splitFullState.commited.length - 1 ∧
    (splitFullState.prompt).2 = ((splitFullState.commited.drop
      (splitIdx splitFullState.commited splitFullState.last_chunked_at)).map
        TWord.txt).flatten :=
  ⟨(prompt_split_spec splitFullState).1,
   (prompt_split_spec splitFullState).2.2.2.2⟩

/-- Peeling the walk's candidate list: the reversed `dropLast` starts with
`ends[len - 2]`. -/
theorem dropLast_reverse_cons (ends : List ℚ) (h2 : 2 ≤ ends.length) :
    ends.dropLast.reverse =
      ends.getD (ends.length - 2) 0 :: ends.dropLast.dropLast.reverse := by
  have hne : ends.dropLast ≠ [] := by
    intro h
    have := congrArg List.length h
    simp only [List.length_dropLast, List.length_nil] at this
    omega
  have hsplit := List.dropLast_concat_getLast hne
  have hlast : ends.dropLast.getLast hne = ends.getD (ends.length - 2) 0 := by
    rw [List.getLast_eq_getElem]
    have hlt : ends.dropLast.length - 1 < ends.dropLast.length := by
      simp only [List.length_dropLast]
      omega
    rw [List.getElem_dropLast]
    have hidx : ends.dropLast.length - 1 = ends.length - 2 := by
      simp only [List.length_dropLast]
      omega
    have hlt2 : ends.length - 2 < ends.length := by omega
    rw [List.getD_eq_getElem?_getD]
    simp only [hidx]
    rw [List.getElem?_eq_getElem hlt2, Option.getD_some]
  calc ends.dropLast.reverse
      = (ends.dropLast.dropLast ++ [ends.dropLast.getLast hne]).reverse := by
        rw [hsplit]
    _ = ends.dropLast.getLast hne :: ends.dropLast.dropLast.reverse := by
        rw [List.reverse_append]
        rfl
    _ = ends.getD (ends.length - 2) 0 :: ends.dropLast.dropLast.reverse := by
        rw [hlast]

/-- The backward walk of `chunk_completed_segment` computes the first
shifted candidate `≤ t` among `ends[len-2], …, ends[0]`: its result is that
candidate when one exists, and exceeds `t` exactly when none does. -/
theorem segWalk_find (t off : ℚ) (ends : List ℚ) (h2 : 2 ≤ ends.length) :
    (segWalk ends off t ≤ t →
      (ends.dropLast.reverse.map (fun x => x + off)).find?
        (fun x => decide (x ≤ t)) = some (segWalk ends off t)) ∧
    (t < segWalk ends off t →
      (ends.dropLast.reverse.map (fun x => x + off)).find?
        (fun x => decide (x ≤ t)) = none) := by
  rw [segWalk]
  by_cases hcond : 2 < ends.length ∧ t < ends.getD (ends.length - 2) 0 + off
  · rw [dif_pos hcond]
    have h2d : 2 ≤ ends.dropLast.length := by
      simp only [List.length_dropLast]
      omega
    have ih := segWalk_find t off ends.dropLast h2d
    rw [dropLast_reverse_cons ends h2, List.map_cons, List.find?_cons_of_neg]
    · exact ih
    · simp only [decide_eq_true_eq]
      exact not_le.2 hcond.2
  · rw [dif_neg hcond]
    constructor
    · intro hle
      rw [dropLast_reverse_cons ends h2, List.map_cons, List.find?_cons_of_pos]
      simp only [decide_eq_true_eq]
      exact hle
    · intro hgt
      have hlen : ends.length = 2 := by
        by_contra hll
        exact hcond ⟨by omega, hgt⟩
      have hnil : ends.dropLast.dropLast = [] := by
        apply List.eq_nil_of_length_eq_zero
        simp only [List.length_dropLast, hlen]
      rw [dropLast_reverse_cons ends h2, List.map_cons, hnil]
      simp only [List.reverse_nil, List.map_nil]
      rw [List.find?_cons_of_neg]
      · rfl
      · simp only [decide_eq_true_eq]
        exact not_le.2 hgt
termination_by ends.length
decreasing_by
  simp only [List.length_dropLast]
  omega

/-- C7: with a non-empty committed log, `chunk_completed_segment` does
nothing when fewer than 2 segment end-times exist; otherwise it examines the
offset-shifted candidates `ends[len-2], …, ends[0]` backward and scrolls
(`chunk_at`) at the first one `≤ t` (the last committed end), doing nothing
when every examined candidate exceeds `t`. -/
theorem chunk_completed_segment_spec (st : OnlineState) (res : List Seg)
    (hc : st.commited ≠ []) :
    ((segments_end_ts res).length < 2 → st.chunk_completed_segment res = st) ∧
    (∀ e, 2 ≤ (segments_end_ts res).length →
      ((segments_end_ts res).dropLast.reverse.map
        (fun x => x + st.buffer_time_offset)).find?
          (fun x => decide (x ≤ ((st.commited.getLast?).map TWord.stop).getD 0)) =
        some e →
      st.chunk_completed_segment res = st.chunk_at e) ∧
    (2 ≤ (segments_end_ts res).length →
      ((segments_end_ts res).dropLast.reverse.map
        (fun x => x + st.buffer_time_offset)).find?
          (fun x => decide (x ≤ ((st.commited.getLast?).map TWord.stop).getD 0)) =
        none →
      st.chunk_completed_segment res = st) := by
  refine ⟨?_, ?_, ?_⟩
  · intro hlt
    unfold OnlineState.chunk_completed_segment
    rw [if_neg hc]
    dsimp only
    rw [if_neg (by omega : ¬ 1 < (segments_end_ts res).length)]
  · intro e h2 hfind
    obtain ⟨w1, w2⟩ := segWalk_find
      (((st.commited.getLast?).map TWord.stop).getD 0) st.buffer_time_offset
      (segments_end_ts res) h2
    rcases le_or_lt (segWalk (segments_end_ts res) st.buffer_time_offset
        (((st.commited.getLast?).map TWord.stop).getD 0))
        (((st.commited.getLast?).map TWord.stop).getD 0) with hle | hgt
    · have := w1 hle
      rw [hfind] at this
      obtain rfl : e = segWalk (segments_end_ts res) st.buffer_time_offset
          (((st.commited.getLast?).map TWord.stop).getD 0) := by
        simpa using this
      unfold OnlineState.chunk_completed_segment
      rw [if_neg hc]
      dsimp only
      rw [if_pos (by omega : 1 < (segments_end_ts res).length), if_pos hle]
    · have := w2 hgt
      rw [hfind] at this
      exact absurd this (by simp)
  · intro h2 hfind
    obtain ⟨w1, w2⟩ := segWalk_find
      (((st.commited.getLast?).map TWord.stop).getD 0) st.buffer_time_offset
      (segments_end_ts res) h2
    rcases le_or_lt (segWalk (segments_end_ts res) st.buffer_time_offset
        (((st.commited.getLast?).map TWord.stop).getD 0))
        (((st.commited.getLast?).map TWord.stop).getD 0) with hle | hgt
    · have := w1 hle
      rw [hfind] at this
      exact absurd this (by simp)
    · unfold OnlineState.chunk_completed_segment
      rw [if_neg hc]
      dsimp only
      rw [if_pos (by omega : 1 < (segments_end_ts res).length),
        if_neg (not_le.2 hgt)]

/-- Spec scenario 5's processor state: one committed word ending at 12 s,
window offset 0. -/
def segChunkState : OnlineState :=
  { OnlineState.init with commited := [mkW 11 12 "w"] }

/-- Spec scenario 5's transcription result: three segments ending at 10,
20 and 29 s. -/
def segRes : List Seg := [⟨10, []⟩, ⟨20, []⟩, ⟨29, []⟩]

/-- Witness for `chunk_completed_segment_spec`: on scenario 5 the walk pops
29, rejects 20 and scrolls at 10. -/
theorem chunk_completed_segment_spec_witness :
    segChunkState.chunk_completed_segment segRes = segChunkState.chunk_at 10 := by
  have hf : ((segments_end_ts segRes).dropLast.reverse.map
      (fun x => x + segChunkState.buffer_time_offset)).find?
        (fun x => decide (x ≤ ((segChunkState.commited.getLast?).map
          TWord.stop).getD 0)) = some 10 := by
    norm_num [segments_end_ts, segRes, segChunkState, OnlineState.init, mkW,
      List.find?]
  exact (chunk_completed_segment_spec segChunkState segRes
    (by decide)).2.1 10 (by decide) hf

/-- Unfolding `" ".join` on two or more strings. -/
theorem joinSp_cons2 (x y : Str) (xs : List Str) :
    joinSp (x :: y :: xs) = x ++ ' ' :: joinSp (y :: xs) := by
  show x ++ [' '] ++ joinWith [' '] (y :: xs) = x ++ ' ' :: joinWith [' '] (y :: xs)
  rw [List.append_assoc]
  rfl

/-- A space-join of non-empty whitespace-free strings is non-empty and has
no leading or trailing whitespace (neither forwards nor reversed). -/
theorem joinSp_drops (L : List Str) (hL : L ≠ []) (hne : ∀ s ∈ L, s ≠ [])
    (hnw : ∀ s ∈ L, ∀ c ∈ s, ¬ c.isWhitespace) :
    joinSp L ≠ [] ∧
    (joinSp L).dropWhile Char.isWhitespace = joinSp L ∧
    (joinSp L).reverse.dropWhile Char.isWhitespace = (joinSp L).reverse := by
  induction L with
  | nil => exact absurd rfl hL
  | cons x xs ih =>
    have hxne : x ≠ [] := hne x (List.mem_cons_self x xs)
    have hxnw : ∀ c ∈ x, ¬ c.isWhitespace := hnw x (List.mem_cons_self x xs)
    cases xs with
    | nil =>
      have hx : joinSp [x] = x := rfl
      rw [hx]
      refine ⟨hxne, ?_, ?_⟩
      · cases hc : x with
        | nil => exact absurd hc hxne
        | cons c cs =>
          rw [List.dropWhile_cons_of_neg]
          exact hxnw c (by rw [hc]; exact List.mem_cons_self c cs)
      · cases hrev : x.reverse with
        | nil => simp
        | cons c t =>
          rw [List.dropWhile_cons_of_neg]
          exact hxnw c (by rw [← List.mem_reverse, hrev]; exact List.mem_cons_self c t)
    | cons y ys =>
      obtain ⟨ih1, ih2, ih3⟩ := ih (List.cons_ne_nil y ys)
        (fun s hs => hne s (List.mem_cons_of_mem x hs))
        (fun s hs => hnw s (List.mem_cons_of_mem x hs))
      rw [joinSp_cons2]
      refine ⟨by simp [hxne], ?_, ?_⟩
      · cases hc : x with
        | nil => exact absurd hc hxne
        | cons c cs =>
          rw [List.cons_append, List.dropWhile_cons_of_neg]
          exact hxnw c (by rw [hc]; exact List.mem_cons_self c cs)
      · rw [show (' ' :: joinSp (y :: ys)) = [' '] ++ joinSp (y :: ys) from rfl]
        rw [List.reverse_append, List.reverse_append]
        cases hrev : (joinSp (y :: ys)).reverse with
        | nil => exact absurd (by simpa using congrArg List.reverse hrev) ih1
        | cons c t =>
          simp only [List.cons_append, List.append_assoc]
          rw [List.dropWhile_cons_of_neg]
          · rw [hrev] at ih3
            intro hws
            rw [List.dropWhile_cons_of_pos hws] at ih3
            have hlen := congrArg List.length ih3
            have hle : (t.dropWhile Char.isWhitespace).length ≤ t.length :=
              (List.dropWhile_sublist Char.isWhitespace).length_le
            simp only [List.length_cons] at hlen
            omega

/-- `strip()` is the identity on a string with whitespace-free ends. -/
theorem trimC_of_drops (s : Str)
    (h1 : s.dropWhile Char.isWhitespace = s)
    (h2 : s.reverse.dropWhile Char.isWhitespace = s.reverse) :
    trimC s = s := by
  unfold trimC
  rw [h1, h2, List.reverse_reverse]

/-- `strip()` removes exactly the single leading space added by the join. -/
theorem trimC_space (s : Str)
    (h1 : s.dropWhile Char.isWhitespace = s)
    (h2 : s.reverse.dropWhile Char.isWhitespace = s.reverse) :
    trimC (' ' :: s) = s := by
  unfold trimC
  rw [List.dropWhile_cons_of_pos (by decide), h1, h2, List.reverse_reverse]

/-- After the start word is recorded, the sentence walk strips one word per
step and emits exactly at the last word, with its end time. -/
theorem sentWalk_last :
    ∀ (ws : List TWord) (w : TWord) (fs : Str) (b : ℚ),
      (∀ v ∈ w :: ws, v.txt ≠ []) →
      (∀ v ∈ w :: ws, ∀ c ∈ v.txt, ¬ c.isWhitespace) →
      sentWalk (w :: ws) (joinSp ((w :: ws).map TWord.txt)) fs (some b) =
        (some (some b, ((w :: ws).getLast (List.cons_ne_nil w ws)).stop, fs), [])
  | [], w, fs, b, hne, hnw => by
    simp only [List.map_cons, List.map_nil]
    rw [show joinSp [w.txt] = w.txt from rfl]
    simp only [sentWalk]
    simp [List.getLast_singleton]
  | w' :: ws', w, fs, b, hne, hnw => by
    obtain ⟨hJ1, hJ2, hJ3⟩ := joinSp_drops ((w' :: ws').map TWord.txt) (by simp)
      (by intro s hs
          obtain ⟨v, hv, rfl⟩ := List.mem_map.1 hs
          exact hne v (List.mem_cons_of_mem w hv))
      (by intro s hs
          obtain ⟨v, hv, rfl⟩ := List.mem_map.1 hs
          exact hnw v (List.mem_cons_of_mem w hv))
    simp only [List.map_cons] at hJ1 hJ2 hJ3 ⊢
    rw [joinSp_cons2]
    have hne_sent : ¬ (w.txt ++ ' ' :: joinSp (w'.txt :: ws'.map TWord.txt) = w.txt) := by
      intro h
      have := congrArg List.length h
      simp at this
    simp only [sentWalk]
    rw [if_neg (by simp), if_neg hne_sent]
    rw [show (w.txt ++ ' ' :: joinSp (w'.txt :: ws'.map TWord.txt)).drop w.txt.length
          = ' ' :: joinSp (w'.txt :: ws'.map TWord.txt) from List.drop_left _ _]
    rw [trimC_space _ hJ2 hJ3]
    have ih := sentWalk_last ws' w' fs b
      (fun v hv => hne v (List.mem_cons_of_mem w hv))
      (fun v hv => hnw v (List.mem_cons_of_mem w hv))
    simp only [List.map_cons] at ih
    simp only [sentWalk] at ih
    rw [List.getLast_cons (List.cons_ne_nil w' ws')]
    exact ih

/-- C6 amended: for at least two committed words with non-empty
whitespace-free texts and the single-sentence identity segmenter,
`words_to_sentences` emits exactly one triple spanning from the first
word's start to the last word's end; a singleton input emits nothing. -/
theorem words_to_sentences_single (ws : List TWord) (h2 : 2 ≤ ws.length)
    (hne : ∀ v ∈ ws, v.txt ≠ [])
    (hnw : ∀ v ∈ ws, ∀ c ∈ v.txt, ¬ c.isWhitespace) :
    words_to_sentences (fun t => [t]) ws =
      [((ws.head?).map TWord.beg,
        ((ws.getLast?).map TWord.stop).getD 0,
        joinSp (ws.map TWord.txt))] := by
  rcases ws with _ | ⟨w, _ | ⟨w', rest⟩⟩
  · simp at h2
  · simp at h2
  · obtain ⟨hJ1, hJ2, hJ3⟩ := joinSp_drops ((w :: w' :: rest).map TWord.txt)
      (by simp)
      (by intro s hs
          obtain ⟨v, hv, rfl⟩ := List.mem_map.1 hs
          exact hne v hv)
      (by intro s hs
          obtain ⟨v, hv, rfl⟩ := List.mem_map.1 hs
          exact hnw v hv)
    obtain ⟨hK1, hK2, hK3⟩ := joinSp_drops ((w' :: rest).map TWord.txt)
      (by simp)
      (by intro s hs
          obtain ⟨v, hv, rfl⟩ := List.mem_map.1 hs
          exact hne v (List.mem_cons_of_mem w hv))
      (by intro s hs
          obtain ⟨v, hv, rfl⟩ := List.mem_map.1 hs
          exact hnw v (List.mem_cons_of_mem w hv))
    unfold words_to_sentences
    simp only [wtsGo]
    rw [trimC_of_drops _ hJ2 hJ3]
    simp only [List.map_cons] at hK2 hK3 ⊢
    rw [joinSp_cons2]
    simp only [sentWalk]
    rw [if_pos ⟨trivial, List.prefix_append w.txt _⟩]
    rw [show (w.txt ++ ' ' :: joinSp (w'.txt :: rest.map TWord.txt)).drop w.txt.length
          = ' ' :: joinSp (w'.txt :: rest.map TWord.txt) from List.drop_left _ _]
    rw [trimC_space _ hK2 hK3]
    have ih := sentWalk_last rest w'
      (w.txt ++ ' ' :: joinSp (w'.txt :: rest.map TWord.txt)) w.beg
      (fun v hv => hne v (List.mem_cons_of_mem w hv))
      (fun v hv => hnw v (List.mem_cons_of_mem w hv))
    simp only [List.map_cons] at ih
    simp only [sentWalk] at ih
    rw [ih]
    rw [List.getLast?_cons_cons,
      List.getLast?_eq_getLast (w' :: rest) (List.cons_ne_nil w' rest)]
    rfl

/-- Witness for `words_to_sentences_single`: the two-word list
`hello world` yields exactly one sentence spanning 0-2 s. -/
theorem words_to_sentences_single_witness :
    2 ≤ ([mkW 0 1 "hello", mkW 1 2 "world"] : List TWord).length ∧
    words_to_sentences (fun t => [t]) [mkW 0 1 "hello", mkW 1 2 "world"] =
      [(some (0 : ℚ), (2 : ℚ), "hello world".data)] := by
  refine ⟨by decide, ?_⟩
  rw [words_to_sentences_single [mkW 0 1 "hello", mkW 1 2 "world"]
    (by decide) (by decide) (by decide)]
  rfl
